import Mathlib

/-!
# Verification of the private-blockchain core (`src/block.js`)

This file gives a shallow embedding, in Lean 4, of the `Block` and
`Blockchain` classes of the repository's single source file and proves the
specification claims about them.

Modelling conventions:

* JavaScript strings are `String` / `List Char` (the repository only ever
  stores code points below 256 in bodies, so byte-level UTF-8 details of
  `Buffer.from` are not observable).
* The external SHA-256 digest is an explicit parameter
  `H : String → String`; collision resistance is idealised as injectivity
  where a claim needs it.  Likewise `bitcoinMessage.verify` is an explicit
  boolean-valued parameter.
* `JSON.stringify` applied to a `Block` instance is modelled concretely
  (`Block.stringify`), reproducing field order, quoting and string
  escaping.  Application payload objects are represented by their JSON
  text (the payload encoder is an external bijection per the spec), and
  `JSON.parse` is modelled by an executable recursive-descent parser
  (`jsonParse`) over a JSON value type covering the payload fragment
  (null, booleans, integer numerals, strings, arrays, objects).
* JavaScript numbers that can be `NaN` (the results of `parseInt`) are
  `Option Int`, with `NaN`-propagating comparison.
* Promise results are `Except`-style values; `Block.getBData`.
-/

set_option maxRecDepth 100000

/-! ## Decimal digit strings (JS `Number.prototype.toString`) -/

/-- The decimal digit character for `d < 10` (JS digit rendering). -/
def digitChar10 (d : Nat) : Char :=
  match d with
  | 0 => '0' | 1 => '1' | 2 => '2' | 3 => '3' | 4 => '4'
  | 5 => '5' | 6 => '6' | 7 => '7' | 8 => '8' | _ => '9'

/-- Little-endian decimal digits of `n`, with explicit fuel so that the
definition is structurally recursive and kernel-reducible. -/
def digitsLE : Nat → Nat → List Char
  | 0, _ => []
  | _ + 1, 0 => []
  | f + 1, n + 1 => digitChar10 ((n + 1) % 10) :: digitsLE f ((n + 1) / 10)

/-- Decimal rendering of a natural number as a character list; this is the
string produced by JS for a nonnegative number. -/
def natReprL (n : Nat) : List Char :=
  if n = 0 then ['0'] else (digitsLE n n).reverse

/-- Decimal rendering of a natural number as a `String`. -/
def natReprS (n : Nat) : String := ⟨natReprL n⟩

/-- Value of a little-endian digit list. -/
def valLE : List Char → Nat
  | [] => 0
  | c :: r => (c.toNat - 48) + 10 * valLE r

theorem digitChar10_toNat {d : Nat} (h : d < 10) :
    (digitChar10 d).toNat = 48 + d := by
  interval_cases d <;> rfl

theorem digitsLE_zero : ∀ f, digitsLE f 0 = [] := by
  intro f; cases f <;> rfl

theorem digitsLE_fuel : ∀ n f f', n ≤ f → n ≤ f' →
    digitsLE f n = digitsLE f' n := by
  intro n
  induction n using Nat.strong_induction_on with
  | _ n ih =>
    intro f f' hf hf'
    cases n with
    | zero => rw [digitsLE_zero, digitsLE_zero]
    | succ m =>
      cases f with
      | zero => omega
      | succ g =>
        cases f' with
        | zero => omega
        | succ g' =>
          simp only [digitsLE]
          have hdiv : (m + 1) / 10 < m + 1 := Nat.div_lt_self (Nat.succ_pos m) (by omega)
          rw [ih ((m + 1) / 10) (by omega) g g' (by omega) (by omega)]

theorem valLE_digitsLE : ∀ n f, n ≤ f → valLE (digitsLE f n) = n := by
  intro n
  induction n using Nat.strong_induction_on with
  | _ n ih =>
    intro f hf
    cases n with
    | zero => rw [digitsLE_zero]; rfl
    | succ m =>
      cases f with
      | zero => omega
      | succ g =>
        simp only [digitsLE, valLE]
        have hdiv : (m + 1) / 10 < m + 1 := Nat.div_lt_self (Nat.succ_pos m) (by omega)
        rw [ih ((m + 1) / 10) (by omega) g (by omega)]
        rw [digitChar10_toNat (Nat.mod_lt _ (by omega))]
        omega

/-- Every character in a digits list is a decimal digit. -/
theorem digitsLE_mem_digit : ∀ n f c, c ∈ digitsLE f n →
    ∃ d, d < 10 ∧ c = digitChar10 d := by
  intro n
  induction n using Nat.strong_induction_on with
  | _ n ih =>
    intro f c hc
    cases n with
    | zero => rw [digitsLE_zero] at hc; simp at hc
    | succ m =>
      cases f with
      | zero => simp [digitsLE] at hc
      | succ g =>
        simp only [digitsLE, List.mem_cons] at hc
        rcases hc with h | h
        · exact ⟨(m + 1) % 10, Nat.mod_lt _ (by omega), h⟩
        · have hdiv : (m + 1) / 10 < m + 1 := Nat.div_lt_self (Nat.succ_pos m) (by omega)
          exact ih ((m + 1) / 10) (by omega) g c h

theorem valLE_reverse_natReprL (n : Nat) : valLE (natReprL n).reverse = n := by
  unfold natReprL
  split
  · simp [valLE]; omega
  · rw [List.reverse_reverse]
    exact valLE_digitsLE n n (le_refl n)

/-- Decimal rendering is injective. -/
theorem natReprL_inj : Function.Injective natReprL := by
  intro m n h
  have := valLE_reverse_natReprL m
  rw [h, valLE_reverse_natReprL] at this
  omega

theorem natReprL_ne_nil (n : Nat) : natReprL n ≠ [] := by
  intro h
  have := valLE_reverse_natReprL n
  rw [h] at this
  simp [valLE] at this
  cases n with
  | zero => simp [natReprL] at h
  | succ k => omega

/-- The head of a decimal rendering is a digit character. -/
theorem natReprL_head_digit (n : Nat) :
    ∀ c, (natReprL n).head? = some c → ∃ d, d < 10 ∧ c = digitChar10 d := by
  intro c hc
  unfold natReprL at hc
  split at hc
  · simp at hc
    exact ⟨0, by omega, hc.symm⟩
  · cases hrev : (digitsLE n n).reverse with
    | nil => rw [hrev] at hc; simp at hc
    | cons a l =>
      rw [hrev] at hc
      simp only [List.head?] at hc
      have hac : a = c := by injection hc
      have hmem : c ∈ (digitsLE n n).reverse := by
        rw [hrev, hac.symm]
        exact List.mem_cons_self _ _
      exact digitsLE_mem_digit n n c (List.mem_reverse.mp hmem)

/-- Every character of a decimal rendering is a decimal digit. -/
theorem natReprL_mem_digit (n : Nat) :
    ∀ c ∈ natReprL n, ∃ d, d < 10 ∧ c = digitChar10 d := by
  intro c hc
  unfold natReprL at hc
  split at hc
  · simp at hc; exact ⟨0, by omega, hc⟩
  · exact digitsLE_mem_digit n n c (List.mem_reverse.mp hc)

theorem digitChar10_isDigit {d : Nat} (h : d < 10) : (digitChar10 d).isDigit = true := by
  interval_cases d <;> rfl

theorem digitChar10_ne_colon {d : Nat} (h : d < 10) : digitChar10 d ≠ ':' := by
  interval_cases d <;> decide

/-! ## JS `String.prototype.slice(0, -3)` -/

/-- JS `s.slice(0, -3)` on a character list: all but the last three
characters (empty if the string has at most three characters). -/
def sliceL3 (l : List Char) : List Char := l.take (l.length - 3)

/-- One canonical-fuel unfolding step of the digit rendering. -/
theorem digitsLE_canon_step (n : Nat) (h : 1 ≤ n) :
    digitsLE n n = digitChar10 (n % 10) :: digitsLE (n / 10) (n / 10) := by
  cases n with
  | zero => omega
  | succ m =>
    simp only [digitsLE]
    have hdiv : (m + 1) / 10 < m + 1 := Nat.div_lt_self (Nat.succ_pos m) (by omega)
    rw [digitsLE_fuel ((m + 1) / 10) m ((m + 1) / 10) (by omega) (le_refl _)]

/-- Dropping the last three characters of the decimal rendering of a
number `ms ≥ 1000` yields the decimal rendering of `ms / 1000`: the JS
expression `ms.toString().slice(0, -3)` is the whole-seconds value when
`ms` is a milliseconds timestamp. -/
theorem sliceL3_natReprL {ms : Nat} (h : 1000 ≤ ms) :
    sliceL3 (natReprL ms) = natReprL (ms / 1000) := by
  have h10 : ms / 10 ≥ 1 := by omega
  have h100 : ms / 100 ≥ 1 := by
    have : ms / 100 ≥ 1000 / 100 := Nat.div_le_div_right h
    omega
  have h1000 : ms / 1000 ≥ 1 := by
    have : ms / 1000 ≥ 1000 / 1000 := Nat.div_le_div_right h
    omega
  have hd1 : ms / 10 / 10 = ms / 100 := by
    rw [Nat.div_div_eq_div_mul]
  have hd2 : ms / 100 / 10 = ms / 1000 := by
    rw [Nat.div_div_eq_div_mul]
  have hms : digitsLE ms ms =
      [digitChar10 (ms % 10), digitChar10 (ms / 10 % 10), digitChar10 (ms / 100 % 10)]
        ++ digitsLE (ms / 1000) (ms / 1000) := by
    rw [digitsLE_canon_step ms (by omega),
        digitsLE_canon_step (ms / 10) h10, hd1,
        digitsLE_canon_step (ms / 100) (by omega), hd2]
    simp
  unfold natReprL
  rw [if_neg (by omega), if_neg (by omega)]
  unfold sliceL3
  rw [hms]
  rw [List.reverse_append]
  have hlen : ((digitsLE (ms / 1000) (ms / 1000)).reverse ++
      [digitChar10 (ms % 10), digitChar10 (ms / 10 % 10), digitChar10 (ms / 100 % 10)].reverse).length
      - 3 = (digitsLE (ms / 1000) (ms / 1000)).reverse.length := by
    simp
  rw [hlen, List.take_left]

/-! ## JS `parseInt` (radix 10) -/

/-- The numeric value of a nonempty decimal-digit run (big-endian). -/
def valBE (l : List Char) : Nat := valLE l.reverse

/-- Leading decimal-digit run of a string, as `parseInt` consumes it;
`none` models `NaN` (no digits at all). -/
def parseDigits (l : List Char) : Option Nat :=
  let ds := l.takeWhile Char.isDigit
  if ds = [] then none else some (valBE ds)

/-- JS `parseInt(s)` for a radix-10 numeral: skips leading spaces, accepts
an optional sign, then reads the leading digit run; `none` models `NaN`. -/
def parseIntJs (l : List Char) : Option Int :=
  match l.dropWhile (fun c => c = ' ') with
  | '-' :: r => (parseDigits r).map (fun n => -(n : Int))
  | '+' :: r => (parseDigits r).map (fun n => (n : Int))
  | r => (parseDigits r).map (fun n => (n : Int))

/-- `parseInt` applied to the decimal rendering of `n` recovers `n`. -/
theorem parseIntJs_natReprL (n : Nat) : parseIntJs (natReprL n) = some (n : Int) := by
  have hdigits : ∀ c ∈ natReprL n, c.isDigit = true := by
    intro c hc
    obtain ⟨d, hd, rfl⟩ := natReprL_mem_digit n c hc
    exact digitChar10_isDigit hd
  have hdrop : (natReprL n).dropWhile (fun c => c = ' ') = natReprL n := by
    cases hrep : natReprL n with
    | nil => rfl
    | cons a l =>
      have ha : a.isDigit = true := by
        apply hdigits; rw [hrep]; exact List.mem_cons_self _ _
      rw [List.dropWhile_cons_of_neg]
      simp only [decide_eq_true_eq]
      intro hsp
      rw [hsp] at ha
      simp [Char.isDigit] at ha
  have htake : (natReprL n).takeWhile Char.isDigit = natReprL n :=
    List.takeWhile_eq_self_iff.mpr hdigits
  have hval : parseDigits (natReprL n) = some n := by
    unfold parseDigits
    rw [htake, if_neg (natReprL_ne_nil n)]
    unfold valBE
    rw [valLE_reverse_natReprL]
  unfold parseIntJs
  rw [hdrop]
  have hhead : ∀ a l, natReprL n = a :: l → a ≠ '-' ∧ a ≠ '+' := by
    intro a l hrep
    have ha : a.isDigit = true := by
      apply hdigits; rw [hrep]; exact List.mem_cons_self _ _
    constructor <;> (intro hbad; rw [hbad] at ha; simp [Char.isDigit] at ha)
  cases hrep : natReprL n with
  | nil => exact absurd hrep (natReprL_ne_nil n)
  | cons a l =>
    obtain ⟨hm, hp⟩ := hhead a l hrep
    rw [hrep] at hval
    split
    · rename_i r heq
      injection heq with h1 h2
      exact absurd h1 hm
    · rename_i r heq
      injection heq with h1 h2
      exact absurd h1 hp
    · rename_i heq
      rw [hval]
      rfl

/-! ## JS `String.prototype.split(":")` -/

/-- JS `s.split(":")` on a character list. -/
def splitColon : List Char → List (List Char)
  | [] => [[]]
  | c :: r =>
    if c = ':' then [] :: splitColon r
    else
      match splitColon r with
      | [] => [[c]]
      | g :: gs => (c :: g) :: gs

theorem splitColon_append {a : List Char} (rest : List Char)
    (ha : ':' ∉ a) : splitColon (a ++ ':' :: rest) = a :: splitColon rest := by
  induction a with
  | nil => simp [splitColon]
  | cons c cs ih =>
    have hc : c ≠ ':' := by
      intro h; exact ha (h ▸ List.mem_cons_self _ _)
    have hcs : ':' ∉ cs := fun h => ha (List.mem_cons_of_mem _ h)
    rw [List.cons_append]
    show (if c = ':' then [] :: splitColon (cs ++ ':' :: rest)
      else
        match splitColon (cs ++ ':' :: rest) with
        | [] => [[c]]
        | g :: gs => (c :: g) :: gs) = (c :: cs) :: splitColon rest
    rw [if_neg hc, ih hcs]

/-! ## JSON string escaping (as performed by `JSON.stringify`) -/

/-- Lowercase hexadecimal digit character for `d < 16`. -/
def hexDigitChar (d : Nat) : Char :=
  match d with
  | 0 => '0' | 1 => '1' | 2 => '2' | 3 => '3' | 4 => '4' | 5 => '5' | 6 => '6' | 7 => '7'
  | 8 => '8' | 9 => '9' | 10 => 'a' | 11 => 'b' | 12 => 'c' | 13 => 'd' | 14 => 'e' | _ => 'f'

/-- Value of a hexadecimal digit character (0 for non-hex characters). -/
def unhexDigit (c : Char) : Nat :=
  match c with
  | '0' => 0 | '1' => 1 | '2' => 2 | '3' => 3 | '4' => 4 | '5' => 5 | '6' => 6 | '7' => 7
  | '8' => 8 | '9' => 9 | 'a' => 10 | 'b' => 11 | 'c' => 12 | 'd' => 13 | 'e' => 14 | 'f' => 15
  | 'A' => 10 | 'B' => 11 | 'C' => 12 | 'D' => 13 | 'E' => 14 | 'F' => 15
  | _ => 0

theorem unhex_hexDigitChar {d : Nat} (h : d < 16) : unhexDigit (hexDigitChar d) = d := by
  interval_cases d <;> rfl

/-- The escape sequence `JSON.stringify` emits for one character of a
string value: `\"`, `\\`, the shorthand escapes `\b \t \n \f \r`, a
`\u00xx` escape for other control characters, and the character itself
otherwise. -/
def escChar (c : Char) : List Char :=
  if c = '"' then ['\\', '"']
  else if c = '\\' then ['\\', '\\']
  else if c = Char.ofNat 8 then ['\\', 'b']
  else if c = Char.ofNat 9 then ['\\', 't']
  else if c = Char.ofNat 10 then ['\\', 'n']
  else if c = Char.ofNat 12 then ['\\', 'f']
  else if c = Char.ofNat 13 then ['\\', 'r']
  else if c.toNat < 32 then
    ['\\', 'u', '0', '0', hexDigitChar (c.toNat / 16), hexDigitChar (c.toNat % 16)]
  else [c]

/-- JSON escaping of a whole string value (without the surrounding quotes). -/
def escL (l : List Char) : List Char := l.foldr (fun c acc => escChar c ++ acc) []

theorem escL_nil : escL [] = [] := rfl

theorem escL_cons (c : Char) (l : List Char) : escL (c :: l) = escChar c ++ escL l := rfl

/-- Decoder for the first escaped character of an escaped stream; the
escape alphabet is a prefix code and this is its one-step inverse. -/
def descape1 : List Char → Option (Char × List Char)
  | [] => none
  | c :: rest =>
    if c = '\\' then
      match rest with
      | '"' :: r => some ('"', r)
      | '\\' :: r => some ('\\', r)
      | 'b' :: r => some (Char.ofNat 8, r)
      | 't' :: r => some (Char.ofNat 9, r)
      | 'n' :: r => some (Char.ofNat 10, r)
      | 'f' :: r => some (Char.ofNat 12, r)
      | 'r' :: r => some (Char.ofNat 13, r)
      | 'u' :: h1 :: h2 :: h3 :: h4 :: r =>
          some (Char.ofNat (4096 * unhexDigit h1 + 256 * unhexDigit h2 +
            16 * unhexDigit h3 + unhexDigit h4), r)
      | _ => none
    else some (c, rest)

theorem descape1_u (h3 h4 : Char) (r : List Char) :
    descape1 ('\\' :: 'u' :: '0' :: '0' :: h3 :: h4 :: r) =
      some (Char.ofNat (4096 * unhexDigit '0' + 256 * unhexDigit '0' +
        16 * unhexDigit h3 + unhexDigit h4), r) := rfl

theorem descape1_bare (c : Char) (h : ¬c = '\\') (rest : List Char) :
    descape1 (c :: rest) = some (c, rest) := by
  simp only [descape1]
  rw [if_neg h]

theorem descape1_escChar (c : Char) (r : List Char) :
    descape1 (escChar c ++ r) = some (c, r) := by
  unfold escChar
  split_ifs with h1 h2 h3 h4 h5 h6 h7 h8
  · subst h1; rfl
  · subst h2; rfl
  · subst h3; rfl
  · subst h4; rfl
  · subst h5; rfl
  · subst h6; rfl
  · subst h7; rfl
  · show descape1 ('\\' :: 'u' :: '0' :: '0' ::
      hexDigitChar (c.toNat / 16) :: hexDigitChar (c.toNat % 16) :: r) = some (c, r)
    rw [descape1_u]
    have hdiv : c.toNat / 16 < 16 := by omega
    have hmod : c.toNat % 16 < 16 := Nat.mod_lt _ (by omega)
    simp only [unhex_hexDigitChar hdiv, unhex_hexDigitChar hmod]
    have hval : (4096 * unhexDigit '0' + 256 * unhexDigit '0' +
        16 * (c.toNat / 16) + c.toNat % 16) = c.toNat := by
      show 4096 * 0 + 256 * 0 + 16 * (c.toNat / 16) + c.toNat % 16 = c.toNat
      omega
    rw [hval, Char.ofNat_toNat]
  · show descape1 (c :: r) = some (c, r)
    exact descape1_bare c h2 r

theorem escChar_ne_nil (c : Char) : escChar c ≠ [] := by
  unfold escChar
  split_ifs <;> simp

/-- Shape of an escape sequence: either a bare non-quote non-backslash
character, or a sequence starting with a backslash. -/
theorem escChar_shape (c : Char) :
    (escChar c = [c] ∧ c ≠ '"' ∧ c ≠ '\\') ∨ ∃ t, escChar c = '\\' :: t := by
  unfold escChar
  split_ifs with h1 h2 h3 h4 h5 h6 h7 h8
  · exact Or.inr ⟨_, rfl⟩
  · exact Or.inr ⟨_, rfl⟩
  · exact Or.inr ⟨_, rfl⟩
  · exact Or.inr ⟨_, rfl⟩
  · exact Or.inr ⟨_, rfl⟩
  · exact Or.inr ⟨_, rfl⟩
  · exact Or.inr ⟨_, rfl⟩
  · exact Or.inr ⟨_, rfl⟩
  · exact Or.inl ⟨rfl, h1, h2⟩

/-- The escape alphabet is a prefix code. -/
theorem escChar_append_inj {c c' : Char} {x x' : List Char}
    (h : escChar c ++ x = escChar c' ++ x') : c = c' ∧ x = x' := by
  have h1 := descape1_escChar c x
  have h2 := descape1_escChar c' x'
  rw [h, h2] at h1
  injection h1 with h3
  injection h3 with h4 h5
  exact ⟨h4.symm, h5.symm⟩

/-- A JSON-escaped string followed by an unescaped closing quote is
uniquely decodable. -/
theorem escL_quote_cancel : ∀ s s' r r' : List Char,
    escL s ++ '"' :: r = escL s' ++ '"' :: r' → s = s' ∧ r = r' := by
  intro s
  induction s with
  | nil =>
    intro s' r r' h
    cases s' with
    | nil =>
      simp only [escL_nil, List.nil_append] at h
      injection h with h1 h2
      exact ⟨rfl, h2⟩
    | cons c' cs' =>
      rw [escL_nil, escL_cons, List.nil_append, List.append_assoc] at h
      rcases escChar_shape c' with ⟨heq, hq, _⟩ | ⟨t, heq⟩
      · rw [heq] at h
        injection h with h1 h2
        exact absurd h1.symm hq
      · rw [heq] at h
        injection h with h1 h2
        exact absurd h1 (by decide)
  | cons c cs ih =>
    intro s' r r' h
    cases s' with
    | nil =>
      rw [escL_nil, escL_cons, List.nil_append, List.append_assoc] at h
      rcases escChar_shape c with ⟨heq, hq, _⟩ | ⟨t, heq⟩
      · rw [heq] at h
        injection h with h1 h2
        exact absurd h1 hq
      · rw [heq] at h
        injection h with h1 h2
        exact absurd h1 (by decide)
    | cons c' cs' =>
      rw [escL_cons, escL_cons, List.append_assoc, List.append_assoc] at h
      obtain ⟨hc, htail⟩ := escChar_append_inj h
      obtain ⟨hcs, hr⟩ := ih cs' r r' htail
      exact ⟨by rw [hc, hcs], hr⟩

/-- JSON escaping is injective. -/
theorem escL_inj {s s' : List Char} (h : escL s = escL s') : s = s' := by
  have h2 : escL s ++ '"' :: [] = escL s' ++ '"' :: [] := by rw [h]
  exact (escL_quote_cancel s s' [] [] h2).1

/-! ## JSON values and `JSON.parse` -/

/-- JSON values in the fragment the application stores (numbers restricted
to integer numerals). -/
inductive Json where
  | jnull
  | jbool (b : Bool)
  | jnum (n : Int)
  | jstr (s : String)
  | jarr (elems : List Json)
  | jobj (fields : List (String × Json))

def isWsChar (c : Char) : Bool :=
  c = ' ' || c = '\t' || c = '\n' || c = '\r'

def skipWs (l : List Char) : List Char := l.dropWhile isWsChar

/-- Body of a JSON string literal (after the opening quote): collects
characters up to the closing quote, decoding escapes. -/
def parseStringBody : List Char → List Char → Option (String × List Char)
  | acc, '"' :: r => some (⟨acc.reverse⟩, r)
  | acc, '\\' :: esc =>
    match esc with
    | '"' :: r => parseStringBody ('"' :: acc) r
    | '\\' :: r => parseStringBody ('\\' :: acc) r
    | '/' :: r => parseStringBody ('/' :: acc) r
    | 'b' :: r => parseStringBody (Char.ofNat 8 :: acc) r
    | 't' :: r => parseStringBody (Char.ofNat 9 :: acc) r
    | 'n' :: r => parseStringBody (Char.ofNat 10 :: acc) r
    | 'f' :: r => parseStringBody (Char.ofNat 12 :: acc) r
    | 'r' :: r => parseStringBody (Char.ofNat 13 :: acc) r
    | 'u' :: a :: b :: c :: d :: r =>
        parseStringBody (Char.ofNat (4096 * unhexDigit a + 256 * unhexDigit b +
          16 * unhexDigit c + unhexDigit d) :: acc) r
    | _ => none
  | acc, c :: r => parseStringBody (c :: acc) r
  | _, [] => none

/-- Integer numeral (optional minus sign followed by digits). -/
def parseNumBody (l : List Char) : Option (Int × List Char) :=
  match l with
  | '-' :: r =>
    let ds := r.takeWhile Char.isDigit
    if ds = [] then none else some (-(valBE ds : Int), r.drop ds.length)
  | r =>
    let ds := r.takeWhile Char.isDigit
    if ds = [] then none else some ((valBE ds : Int), r.drop ds.length)

inductive PMode where
  | pval
  | pitems
  | pfields

inductive PRes where
  | rval (j : Json) (rest : List Char)
  | ritems (js : List Json) (rest : List Char)
  | rfields (fs : List (String × Json)) (rest : List Char)

/-- Recursive-descent JSON parser, fueled so that the definition is
structurally recursive (`pval` parses one value, `pitems` the items of an
array after `[`, `pfields` the members of an object after `{`). -/
def parseF : Nat → PMode → List Char → Option PRes
  | 0, _, _ => none
  | fuel + 1, PMode.pval, input =>
    match skipWs input with
    | 'n' :: 'u' :: 'l' :: 'l' :: r => some (.rval .jnull r)
    | 't' :: 'r' :: 'u' :: 'e' :: r => some (.rval (.jbool true) r)
    | 'f' :: 'a' :: 'l' :: 's' :: 'e' :: r => some (.rval (.jbool false) r)
    | '"' :: r =>
      match parseStringBody [] r with
      | some (s, r2) => some (.rval (.jstr s) r2)
      | none => none
    | '[' :: r =>
      match skipWs r with
      | ']' :: r2 => some (.rval (.jarr []) r2)
      | r2 =>
        match parseF fuel .pitems r2 with
        | some (.ritems js r3) => some (.rval (.jarr js) r3)
        | _ => none
    | '{' :: r =>
      match skipWs r with
      | '}' :: r2 => some (.rval (.jobj []) r2)
      | r2 =>
        match parseF fuel .pfields r2 with
        | some (.rfields fs r3) => some (.rval (.jobj fs) r3)
        | _ => none
    | r =>
      match parseNumBody r with
      | some (n, r2) => some (.rval (.jnum n) r2)
      | none => none
  | fuel + 1, PMode.pitems, input =>
    match parseF fuel .pval input with
    | some (.rval j r) =>
      match skipWs r with
      | ',' :: r2 =>
        match parseF fuel .pitems r2 with
        | some (.ritems js r3) => some (.ritems (j :: js) r3)
        | _ => none
      | ']' :: r2 => some (.ritems [j] r2)
      | _ => none
    | _ => none
  | fuel + 1, PMode.pfields, input =>
    match skipWs input with
    | '"' :: r =>
      match parseStringBody [] r with
      | some (k, r2) =>
        match skipWs r2 with
        | ':' :: r3 =>
          match parseF fuel .pval r3 with
          | some (.rval v r4) =>
            match skipWs r4 with
            | ',' :: r5 =>
              match parseF fuel .pfields r5 with
              | some (.rfields fs r6) => some (.rfields ((k, v) :: fs) r6)
              | _ => none
            | '}' :: r5 => some (.rfields [(k, v)] r5)
            | _ => none
          | _ => none
        | _ => none
      | none => none
    | _ => none

/-- Model of `JSON.parse`: parse one value and require only trailing
whitespace after it. -/
def jsonParse (s : String) : Option Json :=
  match parseF (2 * s.data.length + 2) .pval s.data with
  | some (.rval j rest) => if skipWs rest = [] then some j else none
  | _ => none

/-! ## The `hex2ascii` module and `Buffer.from(x).toString("hex")` -/

def hexValid (c : Char) : Bool :=
  c.isDigit || ('a' ≤ c && c ≤ 'f') || ('A' ≤ c && c ≤ 'F')

/-- `String.fromCharCode(parseInt(pair, 16))` for a two-character chunk:
`parseInt` yields `NaN` (char code 0) when the first character is not a
hex digit, and parses only the leading digit when the second is not. -/
def hexPairChar (a b : Char) : Char :=
  if hexValid a then
    if hexValid b then Char.ofNat (16 * unhexDigit a + unhexDigit b)
    else Char.ofNat (unhexDigit a)
  else Char.ofNat 0

/-- The `hex2ascii` package: decode two-character chunks via
`String.fromCharCode(parseInt(chunk, 16))`. -/
def hex2asciiL : List Char → List Char
  | [] => []
  | [a] => [if hexValid a then Char.ofNat (unhexDigit a) else Char.ofNat 0]
  | a :: b :: r => hexPairChar a b :: hex2asciiL r

/-- `Buffer.from(s).toString("hex")`: two lowercase hex digits per
character (the stored payloads only use code points below 256). -/
def hexEncodeL (l : List Char) : List Char :=
  l.foldr (fun c acc => hexDigitChar (c.toNat / 16 % 16) :: hexDigitChar (c.toNat % 16) :: acc) []

/-! ## The `Block` class -/

/-- A JS value that is either a number or a string: the `time` field holds
the number `0` at construction and a string after sealing. -/
inductive JsVal where
  | num (n : Nat)
  | str (s : String)
  deriving DecidableEq

/-- The five instance fields of `Block`, in property-insertion order
(`hash`, `height`, `body`, `time`, `previousBlockHash`). -/
structure Block where
  hash : Option String
  height : Nat
  body : String
  time : JsVal
  previousBlockHash : Option String
  deriving DecidableEq

/-- `new Block(data)`: `body` is the hex encoding of the payload's JSON
text (`Buffer.from(JSON.stringify(data)).toString("hex")`); the payload
object is represented by its JSON text `dataText`. -/
def newBlock (dataText : String) : Block :=
  { hash := none
    height := 0
    body := ⟨hexEncodeL dataText.data⟩
    time := .num 0
    previousBlockHash := none }

/-- JSON rendering of a string property value (quotes plus escaping). -/
def serStrVal (s : String) : List Char := '"' :: (escL s.data ++ ['"'])

/-- JSON rendering of a nullable string property value. -/
def serOptStr : Option String → List Char
  | none => ['n', 'u', 'l', 'l']
  | some s => serStrVal s

/-- JSON rendering of the `time` property value. -/
def serJsVal : JsVal → List Char
  | .num n => natReprL n
  | .str s => serStrVal s

/-- `JSON.stringify` of a `Block` instance: its five own properties in
insertion order, with JS value rendering. -/
def Block.stringifyL (b : Block) : List Char :=
  "\x7b\"hash\":".data ++ serOptStr b.hash
    ++ ",\"height\":".data ++ natReprL b.height
    ++ ",\"body\":".data ++ serStrVal b.body
    ++ ",\"time\":".data ++ serJsVal b.time
    ++ ",\"previousBlockHash\":".data ++ serOptStr b.previousBlockHash
    ++ ['}']

def Block.stringify (b : Block) : String := ⟨b.stringifyL⟩

/-- `Block.validate()` (the promise always resolves; its value is this
boolean): compare the stored hash against the digest of
`JSON.stringify({ ...self, hash: null })`. -/
def Block.validate (H : String → String) (b : Block) : Bool :=
  b.hash == some (H (Block.stringify { b with hash := none }))

/-- The two rejection reasons of `Block.getBData()`: the `JSON.parse`
exception for an undecodable body, and the explicit genesis rejection. -/
inductive GetDataErr where
  | decodeFailure
  | genesisNoData
  deriving DecidableEq

/-- `Block.getBData()`: decode `body` with `hex2ascii`, `JSON.parse` the
result (an exception rejects the promise), then reject for the genesis
block and resolve with the parsed object otherwise. -/
def Block.getBData (b : Block) : Except GetDataErr Json :=
  match jsonParse ⟨hex2asciiL b.body.data⟩ with
  | none => .error .decodeFailure
  | some blockObject =>
    if b.height = 0 then .error .genesisNoData else .ok blockObject

/-! ## The `Blockchain` class -/

/-- Chain state: the `chain` array and the cached `height` (`-1` when
empty). -/
structure Blockchain where
  chain : List Block
  height : Int

/-- The state set up by the `Blockchain` constructor before
`initializeChain` runs. -/
def emptyBlockchain : Blockchain := { chain := [], height := -1 }

/-- The error message a failing block contributes to `validateChain`'s
error log. -/
def blockErrMsg (h : Nat) : String := "Block " ++ natReprS h ++ " is not valid."

/-- The `for` loop of `validateChain`, threading the `errorLog` array. -/
def validateChainLoop (H : String → String) : List Block → List String → List String
  | [], log => log
  | b :: rest, log =>
    validateChainLoop H rest
      (if b.validate H = false then log ++ [blockErrMsg b.height] else log)

/-- `validateChain()` over a chain array: one error string per block whose
`validate()` resolves `false`, in height (= array) order; the promise
always resolves with this list. -/
def validateChainL (H : String → String) (chain : List Block) : List String :=
  validateChainLoop H chain []

def Blockchain.validateChain (H : String → String) (self : Blockchain) : List String :=
  validateChainL H self.chain

/-- The wall-clock `time` string a block is sealed with:
`new Date().getTime().toString().slice(0, -3)`. -/
def nowString (nowMs : Nat) : String := ⟨sliceL3 (natReprL nowMs)⟩

/-- The genesis-path sealing of `_addBlock` (`chain.length === 0`):
`height = 0`, `time = now-seconds-string`, then
`hash = SHA256(JSON.stringify(block))` with the hash field still holding
its current (constructor: `null`) value. -/
def sealFirst (H : String → String) (block : Block) (nowMs : Nat) : Block :=
  let b1 := { block with height := 0, time := JsVal.str (nowString nowMs) }
  { b1 with hash := some (H b1.stringify) }

/-- The non-genesis sealing of `_addBlock`: link to the previous block,
stamp the time, then hash the stringified block. -/
def sealNext (H : String → String) (previousBlock block : Block) (nowMs : Nat) : Block :=
  let b1 := { block with
    height := previousBlock.height + 1
    previousBlockHash := previousBlock.hash
    time := JsVal.str (nowString nowMs) }
  { b1 with hash := some (H b1.stringify) }

/-- `_addBlock(block)`: returns the promise outcome together with the
chain state after the call (the block is pushed before post-append
validation, and is not rolled back when that validation fails). -/
def Blockchain._addBlock (H : String → String) (self : Blockchain) (block : Block)
    (nowMs : Nat) : Except String Block × Blockchain :=
  if hempty : self.chain = [] then
    let b2 := sealFirst H block nowMs
    (.ok b2, { chain := self.chain ++ [b2], height := 0 })
  else
    let b2 := sealNext H (self.chain.getLast hempty) block nowMs
    let self2 : Blockchain := { chain := self.chain ++ [b2], height := (b2.height : Int) }
    if validateChainL H self2.chain = [] then (.ok b2, self2)
    else (.error "Chain validation failed.", self2)

/-- `initializeChain()`: seed an empty chain with the genesis block
`new Block({data: 'Genesis Block'})` (here by its JSON text). -/
def genesisDataText : String := "\x7b\"data\":\"Genesis Block\"\x7d"

def Blockchain.initChain (H : String → String) (self : Blockchain) (nowMs : Nat) : Blockchain :=
  if self.height = -1 then (self._addBlock H (newBlock genesisDataText) nowMs).2 else self

/-- `requestMessageOwnershipVerification(address)`:
`"<address>:<seconds-string>:starRegistry"`. -/
def requestMessageOwnershipVerification (address : String) (nowMs : Nat) : String :=
  address ++ ":" ++ nowString nowMs ++ ":starRegistry"

/-- JS `a - b > k` where `a` and `b` may be `NaN`: any comparison with
`NaN` is false. -/
def nanGt (a b : Option Int) (k : Int) : Bool :=
  match a, b with
  | some x, some y => decide (x - y > k)
  | _, _ => false

/-- `parseInt(message.split(':')[1])`: `NaN` when the split has no second
component. -/
def messageTime (message : String) : Option Int :=
  match (splitColon message.data).get? 1 with
  | some t => parseIntJs t
  | none => none

/-- Outcome of `submitStar`: the promise resolves with the sealed block,
rejects with a reason string, or (when the un-caught `await _addBlock`
inside the executor rejects) never settles. -/
inductive SubmitResult where
  | resolved (b : Block)
  | rejected (msg : String)
  | unsettled
  deriving DecidableEq

/-- The JSON text of the payload object
`{ address, message, signature, star }` built by `submitStar` (the `star`
argument is represented by its JSON text). -/
def starPayloadText (address message signature starText : String) : String :=
  "\x7b\"address\":" ++ ⟨serStrVal address⟩ ++ ",\"message\":" ++ ⟨serStrVal message⟩
    ++ ",\"signature\":" ++ ⟨serStrVal signature⟩ ++ ",\"star\":" ++ starText ++ "\x7d"

/-- `submitStar(address, message, signature, star)` together with the
chain state after the call. -/
def Blockchain.submitStar (H : String → String)
    (verify : String → String → String → Bool) (self : Blockchain)
    (address message signature starText : String) (nowMs : Nat) :
    SubmitResult × Blockchain :=
  let timeInMessage := messageTime message
  let currentTime := parseIntJs (sliceL3 (natReprL nowMs))
  if nanGt currentTime timeInMessage 300 then
    (.rejected "5 miutes have passed", self)
  else if verify message address signature = false then
    (.rejected "Error detected with signature", self)
  else
    let nb := newBlock (starPayloadText address message signature starText)
    match self._addBlock H nb nowMs with
    | (.ok b, self2) => (.resolved b, self2)
    | (.error _, self2) => (.unsettled, self2)

/-! ## `getStarsByWalletAddress` with its microtask schedule -/

/-- Is a parsed payload truthy in JS (`data && ...`)? -/
def jsTruthy : Json → Bool
  | .jnull => false
  | .jbool b => b
  | .jnum n => decide (n ≠ 0)
  | .jstr s => decide (s ≠ "")
  | .jarr _ => true
  | .jobj _ => true

/-- JS property read `data.address` on a parsed JSON value (`none` models
`undefined`; for duplicate keys `JSON.parse` keeps the last one). -/
def jsGetField : Json → String → Option Json
  | .jobj fs, k => fs.reverse.lookup k
  | _, _ => none

/-- `data && data.address === address` for a parsed payload. -/
def addrMatches (data : Json) (address : String) : Bool :=
  jsTruthy data &&
    match jsGetField data "address" with
    | some (Json.jstr s) => s == address
    | _ => false

/-- Execution state of the `getStarsByWalletAddress` promise executor:
the queued per-block continuations (one per `forEach` callback suspended
at `await block.getBData()`), the current contents of the `stars` array,
the value of `stars` at the moment `resolve` was invoked, and the
rejections of the un-awaited callback promises. -/
structure StarsExec where
  queue : List Block
  stars : List Json
  resolvedValue : Option (List Json)
  unhandledRejections : List GetDataErr

/-- Synchronous phase of the executor: `chain.forEach` starts one async
callback per block — each runs up to its first `await` (queueing its
continuation) without touching `stars` — and then `resolve(stars)` is
called with the value `stars` holds at that moment. -/
def getStarsSyncPhase (self : Blockchain) : StarsExec :=
  let st0 : StarsExec :=
    { queue := [], stars := [], resolvedValue := none, unhandledRejections := [] }
  let afterForEach := self.chain.foldl
    (fun (st : StarsExec) b => { st with queue := st.queue ++ [b] }) st0
  { afterForEach with resolvedValue := some afterForEach.stars }

/-- One queued continuation: resume `await block.getBData()`; on success
run the address filter and push, on rejection the callback's own promise
rejects with nobody listening. -/
def runStarsMicrotask (address : String) (st : StarsExec) (b : Block) : StarsExec :=
  match b.getBData with
  | .ok data =>
    if addrMatches data address then { st with stars := st.stars ++ [data] } else st
  | .error e => { st with unhandledRejections := st.unhandledRejections ++ [e] }

/-- `getStarsByWalletAddress(address)`: the synchronous executor phase
followed by the drained microtask queue, in order. -/
def Blockchain.getStarsByWalletAddress (self : Blockchain) (address : String) : StarsExec :=
  let st0 := getStarsSyncPhase self
  st0.queue.foldl (runStarsMicrotask address) st0

/-! ## Reachability and the chain invariant -/

/-- Chain states reachable by a sequence of appends of
constructor-fresh blocks (`initializeChain` and `submitStar` both call
`_addBlock` on `new Block(...)`). -/
inductive Reachable (H : String → String) : Blockchain → Prop where
  | empty : Reachable H emptyBlockchain
  | step (bc : Blockchain) (dataText : String) (nowMs : Nat) :
      Reachable H bc → Reachable H (bc._addBlock H (newBlock dataText) nowMs).2

/-- The structural invariant of a well-formed chain. -/
structure ChainOk (H : String → String) (bc : Blockchain) : Prop where
  heights : ∀ i (hi : i < bc.chain.length), (bc.chain.get ⟨i, hi⟩).height = i
  validates : ∀ b ∈ bc.chain, b.validate H = true
  times : ∀ b ∈ bc.chain, ∃ ms, b.time = JsVal.str (nowString ms)
  genesisPrev : ∀ h0 : 0 < bc.chain.length, (bc.chain.get ⟨0, h0⟩).previousBlockHash = none
  links : ∀ i (hi : i + 1 < bc.chain.length),
    (bc.chain.get ⟨i + 1, hi⟩).previousBlockHash =
      (bc.chain.get ⟨i, Nat.lt_of_succ_lt hi⟩).hash
  heightCache : bc.height = (bc.chain.length : Int) - 1

theorem sealFirst_height (H : String → String) (block : Block) (nowMs : Nat) :
    (sealFirst H block nowMs).height = 0 := rfl

theorem sealFirst_prev (H : String → String) (block : Block) (nowMs : Nat) :
    (sealFirst H block nowMs).previousBlockHash = block.previousBlockHash := rfl

theorem sealFirst_time (H : String → String) (block : Block) (nowMs : Nat) :
    (sealFirst H block nowMs).time = JsVal.str (nowString nowMs) := rfl

theorem sealNext_height (H : String → String) (prev block : Block) (nowMs : Nat) :
    (sealNext H prev block nowMs).height = prev.height + 1 := rfl

theorem sealNext_prev (H : String → String) (prev block : Block) (nowMs : Nat) :
    (sealNext H prev block nowMs).previousBlockHash = prev.hash := rfl

theorem sealNext_time (H : String → String) (prev block : Block) (nowMs : Nat) :
    (sealNext H prev block nowMs).time = JsVal.str (nowString nowMs) := rfl

/-- A just-sealed block (hash filled in from a null-hash stringify)
validates. -/
theorem seal_validate (H : String → String) (b1 : Block) (hb1 : b1.hash = none) :
    Block.validate H { b1 with hash := some (H b1.stringify) } = true := by
  cases b1 with
  | mk hash height body time prev =>
    simp only at hb1
    subst hb1
    simp [Block.validate]

/-- `errorLog` accumulation of the `validateChain` loop. -/
theorem validateChainLoop_eq (H : String → String) :
    ∀ (chain : List Block) (log : List String),
    validateChainLoop H chain log =
      log ++ (chain.filter (fun b => !(b.validate H))).map (fun b => blockErrMsg b.height) := by
  intro chain
  induction chain with
  | nil => intro log; simp [validateChainLoop]
  | cons b rest ih =>
    intro log
    simp only [validateChainLoop]
    cases hv : b.validate H with
    | true =>
      rw [if_neg (by simp [hv])]
      rw [ih log]
      simp [List.filter_cons, hv]
    | false =>
      rw [if_pos (by simp [hv])]
      rw [ih (log ++ [blockErrMsg b.height])]
      simp [List.filter_cons, hv]

/-- `validateChain` is exactly the failing blocks, in order, rendered as
error strings. -/
theorem validateChainL_eq (H : String → String) (chain : List Block) :
    validateChainL H chain =
      (chain.filter (fun b => !(b.validate H))).map (fun b => blockErrMsg b.height) := by
  unfold validateChainL
  rw [validateChainLoop_eq]
  simp

/-- The error log is empty iff every block validates. -/
theorem validateChainL_eq_nil_iff (H : String → String) (chain : List Block) :
    validateChainL H chain = [] ↔ ∀ b ∈ chain, b.validate H = true := by
  rw [validateChainL_eq]
  simp only [List.map_eq_nil_iff, List.filter_eq_nil_iff]
  constructor
  · intro h b hb
    have := h b hb
    simp at this
    exact this
  · intro h b hb
    simp [h b hb]

theorem chainOk_validateChain (H : String → String) (bc : Blockchain)
    (hok : ChainOk H bc) : validateChainL H bc.chain = [] :=
  (validateChainL_eq_nil_iff H bc.chain).mpr hok.validates

theorem sealFirst_validate (H : String → String) (block : Block) (nowMs : Nat)
    (hb : block.hash = none) : (sealFirst H block nowMs).validate H = true :=
  seal_validate H { block with height := 0, time := JsVal.str (nowString nowMs) } hb

theorem sealNext_validate (H : String → String) (prev block : Block) (nowMs : Nat)
    (hb : block.hash = none) : (sealNext H prev block nowMs).validate H = true :=
  seal_validate H { block with height := prev.height + 1, previousBlockHash := prev.hash, time := JsVal.str (nowString nowMs) } hb

theorem _addBlock_empty_eq (H : String → String) (self : Blockchain) (block : Block)
    (nowMs : Nat) (h : self.chain = []) :
    self._addBlock H block nowMs =
      (.ok (sealFirst H block nowMs),
        { chain := self.chain ++ [sealFirst H block nowMs], height := 0 }) := by
  unfold Blockchain._addBlock
  rw [dif_pos h]

theorem _addBlock_nonempty_eq (H : String → String) (self : Blockchain) (block : Block)
    (nowMs : Nat) (h : self.chain ≠ []) :
    self._addBlock H block nowMs =
      (if validateChainL H
          (self.chain ++ [sealNext H (self.chain.getLast h) block nowMs]) = [] then
        (.ok (sealNext H (self.chain.getLast h) block nowMs),
          { chain := self.chain ++ [sealNext H (self.chain.getLast h) block nowMs],
            height := ((sealNext H (self.chain.getLast h) block nowMs).height : Int) })
      else
        (.error "Chain validation failed.",
          { chain := self.chain ++ [sealNext H (self.chain.getLast h) block nowMs],
            height := ((sealNext H (self.chain.getLast h) block nowMs).height : Int) })) := by
  unfold Blockchain._addBlock
  rw [dif_neg h]

/-- Whatever the outcome, after a call to `_addBlock` the chain is the old
chain plus exactly one (the sealed) block: no rollback on validation
failure. -/
theorem _addBlock_state (H : String → String) (self : Blockchain) (block : Block)
    (nowMs : Nat) :
    ∃ b2, (self._addBlock H block nowMs).2.chain = self.chain ++ [b2] := by
  by_cases h : self.chain = []
  · rw [_addBlock_empty_eq H self block nowMs h]
    exact ⟨_, rfl⟩
  · rw [_addBlock_nonempty_eq H self block nowMs h]
    split
    · exact ⟨_, rfl⟩
    · exact ⟨_, rfl⟩

theorem get_append_one {α : Type} (l : List α) (b : α) :
    (l ++ [b]).get ⟨l.length, by simp⟩ = b := by
  simp

theorem get_append_left_one {α : Type} (l : List α) (b : α) (i : Nat) (hi : i < l.length) :
    (l ++ [b]).get ⟨i, by simp; omega⟩ = l.get ⟨i, hi⟩ :=
  List.get_append i hi

/-- Chain states reachable by appends satisfy the chain invariant:
contiguous heights from 0, every block validates, string times, a null
genesis link, hash-linking, and the cached height. -/
theorem reachable_chainOk (H : String → String) (bc : Blockchain)
    (hr : Reachable H bc) : ChainOk H bc := by
  induction hr with
  | empty =>
    constructor
    · intro i hi; simp [emptyBlockchain] at hi
    · intro b hb; simp [emptyBlockchain] at hb
    · intro b hb; simp [emptyBlockchain] at hb
    · intro h0; simp [emptyBlockchain] at h0
    · intro i hi; simp [emptyBlockchain] at hi
    · simp [emptyBlockchain]
  | step bc dataText nowMs hr ih =>
    by_cases hempty : bc.chain = []
    · rw [_addBlock_empty_eq H bc (newBlock dataText) nowMs hempty]
      have hlen0 : bc.chain.length = 0 := by rw [hempty]; rfl
      constructor
      · intro i hi
        simp only [List.length_append, List.length_cons, List.length_nil, hlen0] at hi
        have hi0 : i = 0 := by omega
        subst hi0
        have hget : (bc.chain ++ [sealFirst H (newBlock dataText) nowMs]).get
            ⟨0, by simp⟩ = sealFirst H (newBlock dataText) nowMs := by
          rw [show (⟨0, by simp⟩ : Fin (bc.chain ++
              [sealFirst H (newBlock dataText) nowMs]).length) =
              ⟨bc.chain.length, by simp⟩ from Fin.ext (by simp [hlen0])]
          exact get_append_one bc.chain _
        rw [hget]
        exact sealFirst_height H (newBlock dataText) nowMs
      · intro b hb
        rcases List.mem_append.mp hb with hmem | hmem
        · rw [hempty] at hmem; simp at hmem
        · rw [List.mem_singleton] at hmem
          subst hmem
          exact sealFirst_validate H (newBlock dataText) nowMs rfl
      · intro b hb
        rcases List.mem_append.mp hb with hmem | hmem
        · rw [hempty] at hmem; simp at hmem
        · rw [List.mem_singleton] at hmem
          subst hmem
          exact ⟨nowMs, sealFirst_time H (newBlock dataText) nowMs⟩
      · intro h0
        have hget : (bc.chain ++ [sealFirst H (newBlock dataText) nowMs]).get
            ⟨0, h0⟩ = sealFirst H (newBlock dataText) nowMs := by
          rw [show (⟨0, h0⟩ : Fin (bc.chain ++
              [sealFirst H (newBlock dataText) nowMs]).length) =
              ⟨bc.chain.length, by simp⟩ from Fin.ext (by simp [hlen0])]
          exact get_append_one bc.chain _
        rw [hget, sealFirst_prev]
        rfl
      · intro i hi
        simp only [List.length_append, List.length_cons, List.length_nil, hlen0] at hi
        omega
      · simp [hlen0]
    · rw [_addBlock_nonempty_eq H bc (newBlock dataText) nowMs hempty]
      rw [apply_ite Prod.snd, ite_self]
      have hlen : 1 ≤ bc.chain.length := by
        cases hc : bc.chain with
        | nil => exact absurd hc hempty
        | cons a l => simp
      have hlast : bc.chain.getLast hempty =
          bc.chain.get ⟨bc.chain.length - 1, by omega⟩ :=
        List.getLast_eq_get bc.chain hempty
      have hprevh : (bc.chain.getLast hempty).height = bc.chain.length - 1 := by
        rw [hlast]
        exact ih.heights (bc.chain.length - 1) (by omega)
      have hb2h : (sealNext H (bc.chain.getLast hempty) (newBlock dataText) nowMs).height =
          bc.chain.length := by
        rw [sealNext_height, hprevh]
        omega
      constructor
      · intro i hi
        simp only [List.length_append, List.length_cons, List.length_nil] at hi
        by_cases hil : i < bc.chain.length
        · rw [get_append_left_one bc.chain _ i hil]
          exact ih.heights i hil
        · have hieq : i = bc.chain.length := by omega
          subst hieq
          rw [get_append_one]
          exact hb2h
      · intro b hb
        rcases List.mem_append.mp hb with hmem | hmem
        · exact ih.validates b hmem
        · rw [List.mem_singleton] at hmem
          subst hmem
          exact sealNext_validate H _ (newBlock dataText) nowMs rfl
      · intro b hb
        rcases List.mem_append.mp hb with hmem | hmem
        · exact ih.times b hmem
        · rw [List.mem_singleton] at hmem
          subst hmem
          exact ⟨nowMs, sealNext_time H _ (newBlock dataText) nowMs⟩
      · intro h0
        rw [get_append_left_one bc.chain _ 0 (by omega)]
        exact ih.genesisPrev (by omega)
      · intro i hi
        simp only [List.length_append, List.length_cons, List.length_nil] at hi
        by_cases hil : i + 1 < bc.chain.length
        · rw [get_append_left_one bc.chain _ (i + 1) hil,
              get_append_left_one bc.chain _ i (by omega)]
          exact ih.links i hil
        · have hieq : i + 1 = bc.chain.length := by omega
          have hieq2 : i = bc.chain.length - 1 := by omega
          have hgetlast : (bc.chain ++
              [sealNext H (bc.chain.getLast hempty) (newBlock dataText) nowMs]).get
                ⟨i + 1, by simp; omega⟩ =
              sealNext H (bc.chain.getLast hempty) (newBlock dataText) nowMs := by
            rw [show (⟨i + 1, by simp; omega⟩ : Fin (bc.chain ++
              [sealNext H (bc.chain.getLast hempty) (newBlock dataText) nowMs]).length) =
              ⟨bc.chain.length, by simp⟩ from Fin.ext (by simp [hieq])]
            exact get_append_one bc.chain _
          rw [hgetlast, sealNext_prev,
              get_append_left_one bc.chain _ i (by omega)]
          subst hieq2
          exact congrArg Block.hash hlast
      · simp only []
        rw [hb2h]
        simp only [List.length_append, List.length_cons, List.length_nil]
        push_cast
        omega

theorem _addBlock_snd_nonempty (H : String → String) (self : Blockchain) (block : Block)
    (nowMs : Nat) (h : self.chain ≠ []) :
    (self._addBlock H block nowMs).2 =
      { chain := self.chain ++ [sealNext H (self.chain.getLast h) block nowMs],
        height := ((sealNext H (self.chain.getLast h) block nowMs).height : Int) } := by
  rw [_addBlock_nonempty_eq H self block nowMs h, apply_ite Prod.snd, ite_self]

theorem _addBlock_ok_of_valid (H : String → String) (self : Blockchain) (block : Block)
    (nowMs : Nat) (h : self.chain ≠ [])
    (hv : validateChainL H
      (self.chain ++ [sealNext H (self.chain.getLast h) block nowMs]) = []) :
    (self._addBlock H block nowMs).1 =
      .ok (sealNext H (self.chain.getLast h) block nowMs) := by
  rw [_addBlock_nonempty_eq H self block nowMs h, if_pos hv]

/-- Appending a fresh block to a reachable chain resolves with the sealed
block. -/
theorem _addBlock_ok_of_reachable (H : String → String) (bc : Blockchain)
    (hr : Reachable H bc) (dataText : String) (nowMs : Nat) :
    ∃ b2, (bc._addBlock H (newBlock dataText) nowMs).1 = .ok b2 ∧
      (bc._addBlock H (newBlock dataText) nowMs).2.chain = bc.chain ++ [b2] := by
  have hok2 := reachable_chainOk H _ (Reachable.step bc dataText nowMs hr)
  by_cases hempty : bc.chain = []
  · refine ⟨sealFirst H (newBlock dataText) nowMs, ?_, ?_⟩
    · rw [_addBlock_empty_eq H bc (newBlock dataText) nowMs hempty]
    · rw [_addBlock_empty_eq H bc (newBlock dataText) nowMs hempty]
  · have hsnd := _addBlock_snd_nonempty H bc (newBlock dataText) nowMs hempty
    have hv : validateChainL H
        (bc.chain ++ [sealNext H (bc.chain.getLast hempty) (newBlock dataText) nowMs]) = [] := by
      have := chainOk_validateChain H _ hok2
      rw [hsnd] at this
      exact this
    exact ⟨sealNext H (bc.chain.getLast hempty) (newBlock dataText) nowMs,
      _addBlock_ok_of_valid H bc (newBlock dataText) nowMs hempty hv,
      by rw [hsnd]⟩

/-- C1: in every chain state reachable by a sequence of appends
(`_addBlock`), block heights are contiguous from 0
(`chain[i].height == i`), the genesis block has
`previousBlockHash == null`, and every later block's `previousBlockHash`
equals the previous block's `hash`. -/
theorem C1_hash_link_invariant (H : String → String) (bc : Blockchain)
    (hr : Reachable H bc) :
    (∀ i (hi : i < bc.chain.length), (bc.chain.get ⟨i, hi⟩).height = i) ∧
    (∀ h0 : 0 < bc.chain.length, (bc.chain.get ⟨0, h0⟩).previousBlockHash = none) ∧
    (∀ i (hi : i + 1 < bc.chain.length),
      (bc.chain.get ⟨i + 1, hi⟩).previousBlockHash =
        (bc.chain.get ⟨i, Nat.lt_of_succ_lt hi⟩).hash) := by
  have hok := reachable_chainOk H bc hr
  exact ⟨hok.heights, hok.genesisPrev, hok.links⟩

/-- The two-block chain used as a concrete input by several witnesses:
genesis plus one application block, appended with the identity digest. -/
def wbcGen : Blockchain :=
  (emptyBlockchain._addBlock id (newBlock genesisDataText) 1700000000123).2

def wbc1 : Blockchain :=
  (wbcGen._addBlock id (newBlock "\x7b\"a\":1\x7d") 1700000005000).2

theorem wbcGen_reachable : Reachable id wbcGen :=
  Reachable.step emptyBlockchain genesisDataText 1700000000123 Reachable.empty

theorem wbc1_reachable : Reachable id wbc1 :=
  Reachable.step wbcGen "\x7b\"a\":1\x7d" 1700000005000 wbcGen_reachable

theorem C1_witness :
    (∀ i (hi : i < wbc1.chain.length), (wbc1.chain.get ⟨i, hi⟩).height = i) ∧
    (∀ h0 : 0 < wbc1.chain.length, (wbc1.chain.get ⟨0, h0⟩).previousBlockHash = none) ∧
    (∀ i (hi : i + 1 < wbc1.chain.length),
      (wbc1.chain.get ⟨i + 1, hi⟩).previousBlockHash =
        (wbc1.chain.get ⟨i, Nat.lt_of_succ_lt hi⟩).hash) :=
  C1_hash_link_invariant id wbc1 wbc1_reachable

/-- C2: every block sealed by `_addBlock` satisfies `validate()` right
after sealing: the append resolves with the sealed block, that block
validates, and so does every block of the resulting chain. -/
theorem C2_sealed_blocks_validate (H : String → String) (bc : Blockchain)
    (hr : Reachable H bc) (dataText : String) (nowMs : Nat) :
    ∃ b2, (bc._addBlock H (newBlock dataText) nowMs).1 = .ok b2 ∧
      b2.validate H = true ∧
      (∀ b ∈ (bc._addBlock H (newBlock dataText) nowMs).2.chain, b.validate H = true) := by
  obtain ⟨b2, hok, hchain⟩ := _addBlock_ok_of_reachable H bc hr dataText nowMs
  have hall := (reachable_chainOk H _ (Reachable.step bc dataText nowMs hr)).validates
  refine ⟨b2, hok, ?_, hall⟩
  apply hall
  rw [hchain]
  exact List.mem_append.mpr (Or.inr (List.mem_singleton.mpr rfl))

theorem C2_witness :
    ∃ b2, (wbcGen._addBlock id (newBlock "\x7b\"a\":1\x7d") 1700000005000).1 = .ok b2 ∧
      b2.validate id = true ∧
      (∀ b ∈ (wbcGen._addBlock id (newBlock "\x7b\"a\":1\x7d") 1700000005000).2.chain,
        b.validate id = true) :=
  C2_sealed_blocks_validate id wbcGen wbcGen_reachable "\x7b\"a\":1\x7d" 1700000005000

/-- C5: when whole-chain validation reports an error after a non-genesis
append, `_addBlock` rejects with `"Chain validation failed."` and the
just-appended block stays in the chain: the post-call chain is the
pre-call chain plus that one block. -/
theorem C5_reject_without_rollback (H : String → String) (bc : Blockchain) (block : Block)
    (nowMs : Nat) (hne : bc.chain ≠ [])
    (hbad : validateChainL H (bc._addBlock H block nowMs).2.chain ≠ []) :
    (bc._addBlock H block nowMs).1 = .error "Chain validation failed." ∧
    ∃ b2, (bc._addBlock H block nowMs).2.chain = bc.chain ++ [b2] := by
  have hsnd := _addBlock_snd_nonempty H bc block nowMs hne
  have hbad2 : validateChainL H
      (bc.chain ++ [sealNext H (bc.chain.getLast hne) block nowMs]) ≠ [] := by
    intro hcontra
    apply hbad
    rw [hsnd]
    exact hcontra
  constructor
  · rw [_addBlock_nonempty_eq H bc block nowMs hne, if_neg hbad2]
  · rw [hsnd]
    exact ⟨_, rfl⟩

/-- C8: `validateChain` resolves (never rejects) with exactly one error
string `"Block <height> is not valid."` per block whose `validate()` is
false, visiting blocks in chain (= height) order; the log is empty iff
every block validates — in particular the result depends only on the
per-block digest test, with no separate check of `previousBlockHash`
linkage. -/
theorem C8_validateChain_per_block (H : String → String) (chain : List Block) :
    validateChainL H chain =
      (chain.filter (fun b => !(b.validate H))).map (fun b => blockErrMsg b.height) ∧
    (validateChainL H chain = [] ↔ ∀ b ∈ chain, b.validate H = true) :=
  ⟨validateChainL_eq H chain, validateChainL_eq_nil_iff H chain⟩

/-- A block sealed against the identity digest directly (used to exhibit
chains whose linkage is broken while every block still self-validates). -/
def selfSealed (content : Block) : Block :=
  { content with hash := some (Block.stringify { content with hash := none }) }

def brokenB0 : Block :=
  selfSealed { hash := none, height := 0, body := "00", time := .str "1", previousBlockHash := none }

def brokenB1 : Block :=
  selfSealed { hash := none, height := 1, body := "01", time := .str "2", previousBlockHash := some "bogus" }

theorem C8_witness :
    validateChainL id [brokenB0, brokenB1] = [] ∧
    brokenB1.previousBlockHash ≠ brokenB0.hash :=
  ⟨(C8_validateChain_per_block id [brokenB0, brokenB1]).2.mpr (by decide), by decide⟩

/-- C9 counterexample: the genesis chain sealed at millisecond timestamp
1700000000123 stores a `time` that is a JS *string*, not an integer — the
claim "the time field is an integer timestamp" is false on this reachable
state. -/
theorem C9_counterexample :
    Reachable id wbcGen ∧
    ∃ b ∈ wbcGen.chain, (∃ n : Nat, b.time = JsVal.num n) → False := by
  refine ⟨wbcGen_reachable, sealFirst id (newBlock genesisDataText) 1700000000123, ?_, ?_⟩
  · rw [show wbcGen.chain = [sealFirst id (newBlock genesisDataText) 1700000000123] from rfl]
    exact List.mem_singleton.mpr rfl
  · rintro ⟨n, hn⟩
    rw [sealFirst_time] at hn
    exact JsVal.noConfusion hn

/-- C9 amended: every sealed block's `time` is the string of decimal
digits obtained from the millisecond timestamp by dropping the last three
characters — for any real timestamp (`ms ≥ 1000`) that string denotes the
creation time in whole Unix seconds (`ms / 1000`). -/
theorem C9_time_is_seconds_string (H : String → String) (bc : Blockchain)
    (hr : Reachable H bc) :
    (∀ b ∈ bc.chain, ∃ ms, b.time = JsVal.str (nowString ms)) ∧
    (∀ ms : Nat, 1000 ≤ ms → nowString ms = natReprS (ms / 1000)) := by
  refine ⟨(reachable_chainOk H bc hr).times, ?_⟩
  intro ms hms
  unfold nowString natReprS
  exact congrArg String.mk (sliceL3_natReprL hms)

theorem C9_witness :
    (∀ b ∈ wbcGen.chain, ∃ ms, b.time = JsVal.str (nowString ms)) ∧
    (∀ ms : Nat, 1000 ≤ ms → nowString ms = natReprS (ms / 1000)) :=
  C9_time_is_seconds_string id wbcGen wbcGen_reachable

/-- C10: whenever `submitStar` rejects (expired challenge or invalid
signature), the chain state is untouched: no block is appended and the
state after the call is the state before it. -/
theorem C10_reject_leaves_chain (H : String → String)
    (verify : String → String → String → Bool) (bc : Blockchain)
    (address message signature starText : String) (nowMs : Nat) (msg : String)
    (hrej : (bc.submitStar H verify address message signature starText nowMs).1 =
      .rejected msg) :
    (bc.submitStar H verify address message signature starText nowMs).2 = bc := by
  unfold Blockchain.submitStar at hrej ⊢
  by_cases h1 : nanGt (parseIntJs (sliceL3 (natReprL nowMs))) (messageTime message) 300
  · rw [if_pos h1]
  · rw [if_neg h1] at hrej ⊢
    by_cases h2 : verify message address signature = false
    · rw [if_pos h2]
    · rw [if_neg h2] at hrej
      rcases hadd : bc._addBlock H
          (newBlock (starPayloadText address message signature starText)) nowMs with ⟨r, bc2⟩
      simp only [hadd] at hrej
      cases r with
      | ok b => simp at hrej
      | error e => simp at hrej

theorem C10_witness :
    (wbcGen.submitStar id (fun _ _ _ => true) "A"
      (requestMessageOwnershipVerification "A" 1700000000123) "sig" "\x7b\x7d"
      1700000301200).2 = wbcGen :=
  C10_reject_leaves_chain id (fun _ _ _ => true) wbcGen "A"
    (requestMessageOwnershipVerification "A" 1700000000123) "sig" "\x7b\x7d"
    1700000301200 "5 miutes have passed" (by decide)

/-- A chain whose (genesis) block was tampered with after sealing: used to
exercise the failing-validation path of `_addBlock`. -/
def tamperedGenesisBlock : Block :=
  { sealFirst id (newBlock genesisDataText) 1700000000123 with body := "ff" }

def tamperedGenesisBC : Blockchain :=
  { chain := [tamperedGenesisBlock], height := 0 }

theorem C5_witness :
    (tamperedGenesisBC._addBlock id (newBlock "\x7b\x7d") 1700000005000).1 =
      .error "Chain validation failed." ∧
    ∃ b2, (tamperedGenesisBC._addBlock id (newBlock "\x7b\x7d") 1700000005000).2.chain =
      tamperedGenesisBC.chain ++ [b2] :=
  C5_reject_without_rollback id tamperedGenesisBC (newBlock "\x7b\x7d") 1700000005000
    (by decide) (by decide)

/-- C7 counterexample: a height-0 block whose stored body is not a valid
hex/JSON encoding makes `getBData` reject with the decode error, not the
genesis error — `JSON.parse` runs before the genesis check. -/
def badGenesisBlock : Block :=
  { hash := none, height := 0, body := "zz", time := .num 0, previousBlockHash := none }

theorem C7_counterexample :
    Block.getBData badGenesisBlock = .error .decodeFailure ∧
    Block.getBData badGenesisBlock ≠ .error .genesisNoData := by
  constructor
  · rfl
  · intro h
    rw [show Block.getBData badGenesisBlock = Except.error GetDataErr.decodeFailure
      from rfl] at h
    injection h with h3
    exact GetDataErr.noConfusion h3

/-- C7 amended: `getBData` decodes first — it fails with the decode error
whenever the stored body does not parse (at any height, including 0);
when the body parses it fails with the genesis error at height 0 and
resolves with the decoded payload otherwise. -/
theorem C7_getBData_dispatch (b : Block) :
    (jsonParse ⟨hex2asciiL b.body.data⟩ = none → b.getBData = .error .decodeFailure) ∧
    (∀ j, jsonParse ⟨hex2asciiL b.body.data⟩ = some j →
      (b.height = 0 → b.getBData = .error .genesisNoData) ∧
      (b.height ≠ 0 → b.getBData = .ok j)) := by
  unfold Block.getBData
  constructor
  · intro h
    rw [h]
  · intro j h
    rw [h]
    constructor
    · intro h0
      simp only [if_pos h0]
    · intro h0
      simp only [if_neg h0]

def goodBodyBlock : Block :=
  { hash := none
    height := 1
    body := ⟨hexEncodeL "\x7b\"a\":1\x7d".data⟩
    time := .num 0
    previousBlockHash := none }

theorem C7_witness :
    Block.getBData goodBodyBlock = .ok (Json.jobj [("a", Json.jnum 1)]) :=
  (((C7_getBData_dispatch goodBodyBlock).2 (Json.jobj [("a", Json.jnum 1)]) (by rfl)).2
    (by decide))

/-! ## Single-field distinctness of the block serialization (for C3) -/

theorem digitChar10_ne_quote {d : Nat} (h : d < 10) : digitChar10 d ≠ '"' := by
  interval_cases d <;> decide

theorem natReprL_ne_quote_cons (n : Nat) (t : List Char) : natReprL n ≠ '"' :: t := by
  intro h
  cases hrep : natReprL n with
  | nil => exact natReprL_ne_nil n hrep
  | cons a l =>
    rw [hrep] at h
    injection h with h1 h2
    obtain ⟨d, hd, rfl⟩ := natReprL_head_digit n a (by rw [hrep]; rfl)
    exact digitChar10_ne_quote hd h1

/-- The JSON rendering of the `time` value is injective. -/
theorem serJsVal_inj {v v' : JsVal} (h : serJsVal v = serJsVal v') : v = v' := by
  cases v with
  | num n =>
    cases v' with
    | num n' => exact congrArg JsVal.num (natReprL_inj h)
    | str s' =>
      exact absurd h (natReprL_ne_quote_cons n _)
  | str s =>
    cases v' with
    | num n' =>
      exact absurd h.symm (natReprL_ne_quote_cons n' _)
    | str s' =>
      unfold serJsVal serStrVal at h
      injection h with h1 h2
      have h3 : escL s.data ++ '"' :: [] = escL s'.data ++ '"' :: [] := h2
      have h4 := (escL_quote_cancel s.data s'.data [] [] h3).1
      exact congrArg JsVal.str (String.ext h4)

/-- The JSON rendering of a nullable string value is injective. -/
theorem serOptStr_inj {p p' : Option String} (h : serOptStr p = serOptStr p') : p = p' := by
  cases p with
  | none =>
    cases p' with
    | none => rfl
    | some s' => simp [serOptStr, serStrVal] at h
  | some s =>
    cases p' with
    | none => simp [serOptStr, serStrVal] at h
    | some s' =>
      unfold serOptStr serStrVal at h
      injection h with h1 h2
      have h3 : escL s.data ++ '"' :: [] = escL s'.data ++ '"' :: [] := h2
      have h4 := (escL_quote_cancel s.data s'.data [] [] h3).1
      exact congrArg Option.some (String.ext h4)

/-- Fully right-associated decomposition of the null-hash block
serialization, isolating each serialized field. -/
theorem stringifyL_null_decomp (hht : Nat) (body : String) (t : JsVal) (p : Option String) :
    Block.stringifyL { hash := none, height := hht, body := body, time := t, previousBlockHash := p } =
      "\x7b\"hash\":".data ++ (serOptStr none ++ (",\"height\":".data ++ (natReprL hht ++
        (",\"body\":".data ++ ('"' :: (escL body.data ++ ('"' :: (",\"time\":".data ++
        (serJsVal t ++ (",\"previousBlockHash\":".data ++ (serOptStr p ++ ['}']))))))))))) := by
  simp [Block.stringifyL, serStrVal, List.append_assoc]

/-- One mutation of a single non-hash field of a block. -/
inductive FieldMut where
  | mBody (s : String)
  | mHeight (n : Nat)
  | mTime (v : JsVal)
  | mPrev (p : Option String)

/-- Apply a field mutation (the `hash` field is untouched, as mutating it
trivially breaks the digest comparison). -/
def applyMut (b : Block) : FieldMut → Block
  | .mBody s => { b with body := s }
  | .mHeight n => { b with height := n }
  | .mTime v => { b with time := v }
  | .mPrev p => { b with previousBlockHash := p }

/-- The mutation writes a value different from the stored one. -/
def mutChanges (b : Block) : FieldMut → Prop
  | .mBody s => s ≠ b.body
  | .mHeight n => n ≠ b.height
  | .mTime v => v ≠ b.time
  | .mPrev p => p ≠ b.previousBlockHash

theorem applyMut_hash (b : Block) (m : FieldMut) : (applyMut b m).hash = b.hash := by
  cases m <;> rfl

/-- Mutating any single non-hash field to a different value changes the
null-hash serialization (`JSON.stringify` is injective field-wise on the
block shape). -/
theorem stringify_mut_ne (b : Block) (m : FieldMut) (hm : mutChanges b m) :
    Block.stringify { applyMut b m with hash := none } ≠
      Block.stringify { b with hash := none } := by
  intro hEq
  have hL := congrArg String.data hEq
  cases b with
  | mk hh hht hbody htime hprev =>
    cases m with
    | mBody s =>
      have hL2 : Block.stringifyL (Block.mk none hht s htime hprev) =
          Block.stringifyL (Block.mk none hht hbody htime hprev) := hL
      rw [stringifyL_null_decomp, stringifyL_null_decomp] at hL2
      have h1 := List.append_cancel_left hL2
      have h2 := List.append_cancel_left h1
      have h3 := List.append_cancel_left h2
      have h4 := List.append_cancel_left h3
      have h5 := List.append_cancel_left h4
      injection h5 with h6 h7
      have h8 := (escL_quote_cancel s.data hbody.data _ _ h7).1
      exact hm (String.ext h8)
    | mHeight n =>
      have hL2 : Block.stringifyL (Block.mk none n hbody htime hprev) =
          Block.stringifyL (Block.mk none hht hbody htime hprev) := hL
      rw [stringifyL_null_decomp, stringifyL_null_decomp] at hL2
      have h1 := List.append_cancel_left hL2
      have h2 := List.append_cancel_left h1
      have h3 := List.append_cancel_left h2
      have h4 := List.append_cancel_right h3
      exact hm (natReprL_inj h4)
    | mTime v =>
      have hL2 : Block.stringifyL (Block.mk none hht hbody v hprev) =
          Block.stringifyL (Block.mk none hht hbody htime hprev) := hL
      rw [stringifyL_null_decomp, stringifyL_null_decomp] at hL2
      have h1 := List.append_cancel_left hL2
      have h2 := List.append_cancel_left h1
      have h3 := List.append_cancel_left h2
      have h4 := List.append_cancel_left h3
      have h5 := List.append_cancel_left h4
      injection h5 with h6 h7
      have h8 := List.append_cancel_left h7
      injection h8 with h9 h10
      have h11 := List.append_cancel_left h10
      have h12 := List.append_cancel_right h11
      exact hm (serJsVal_inj h12)
    | mPrev p =>
      have hL2 : Block.stringifyL (Block.mk none hht hbody htime p) =
          Block.stringifyL (Block.mk none hht hbody htime hprev) := hL
      rw [stringifyL_null_decomp, stringifyL_null_decomp] at hL2
      have h1 := List.append_cancel_left hL2
      have h2 := List.append_cancel_left h1
      have h3 := List.append_cancel_left h2
      have h4 := List.append_cancel_left h3
      have h5 := List.append_cancel_left h4
      injection h5 with h6 h7
      have h8 := List.append_cancel_left h7
      injection h8 with h9 h10
      have h11 := List.append_cancel_left h10
      have h12 := List.append_cancel_left h11
      have h13 := List.append_cancel_left h12
      have h14 := List.append_cancel_right h13
      exact hm (serOptStr_inj h14)

theorem filter_set_single {α : Type} (p : α → Bool) :
    ∀ (l : List α) (i : Nat), i < l.length → (∀ b ∈ l, p b = false) →
    ∀ b', p b' = true → (l.set i b').filter p = [b'] := by
  intro l
  induction l with
  | nil => intro i hi; simp at hi
  | cons a rest ih =>
    intro i hi hall b' hb'
    cases i with
    | zero =>
      have hrest : rest.filter p = [] :=
        List.filter_eq_nil_iff.mpr
          (fun x hx => by simp [hall x (List.mem_cons_of_mem _ hx)])
      simp [List.set, List.filter_cons, hb', hrest]
    | succ j =>
      have ha : p a = false := hall a (List.mem_cons_self _ _)
      have hrec := ih j (by simpa using hi)
        (fun x hx => hall x (List.mem_cons_of_mem _ hx)) b' hb'
      simp [List.set, List.filter_cons, ha, hrec]

theorem validateChainL_set_single (H : String → String) (chain : List Block) (i : Nat)
    (hi : i < chain.length) (b' : Block)
    (hall : ∀ b ∈ chain, b.validate H = true) (hb' : b'.validate H = false) :
    validateChainL H (chain.set i b') = [blockErrMsg b'.height] := by
  rw [validateChainL_eq]
  rw [filter_set_single (fun b => !(b.validate H)) chain i hi
    (fun b hb => by simp [hall b hb]) b' (by simp [hb'])]
  rfl

/-- C3: mutating any single field (`body`, `height`, `time` or
`previousBlockHash`) of a sealed block of a reachable chain to a different
value makes `validate()` resolve false on that block, and makes
`validateChain()` resolve with exactly the one entry
`"Block <height> is not valid."` for that block (the `<height>` rendered
is the block's current, i.e. possibly mutated, height field). -/
theorem C3_tamper_detection (H : String → String) (hinj : Function.Injective H)
    (bc : Blockchain) (hr : Reachable H bc) (i : Nat) (hi : i < bc.chain.length)
    (m : FieldMut) (hm : mutChanges (bc.chain.get ⟨i, hi⟩) m) :
    (applyMut (bc.chain.get ⟨i, hi⟩) m).validate H = false ∧
    validateChainL H (bc.chain.set i (applyMut (bc.chain.get ⟨i, hi⟩) m)) =
      [blockErrMsg (applyMut (bc.chain.get ⟨i, hi⟩) m).height] := by
  have hok := reachable_chainOk H bc hr
  have hbval : (bc.chain.get ⟨i, hi⟩).validate H = true :=
    hok.validates _ (List.get_mem bc.chain i hi)
  have hbhash : (bc.chain.get ⟨i, hi⟩).hash =
      some (H (Block.stringify { bc.chain.get ⟨i, hi⟩ with hash := none })) := by
    have h := hbval
    unfold Block.validate at h
    exact beq_iff_eq.mp h
  have hneq := stringify_mut_ne (bc.chain.get ⟨i, hi⟩) m hm
  have hvalfalse : (applyMut (bc.chain.get ⟨i, hi⟩) m).validate H = false := by
    unfold Block.validate
    rw [applyMut_hash, hbhash]
    rw [beq_eq_false_iff_ne]
    intro hcontra
    injection hcontra with hcontra2
    exact hneq (hinj hcontra2).symm
  exact ⟨hvalfalse,
    validateChainL_set_single H bc.chain i hi _ hok.validates hvalfalse⟩

theorem C3_witness :
    (applyMut (wbc1.chain.get ⟨1, by decide⟩) (FieldMut.mBody "ff")).validate id = false ∧
    validateChainL id
      (wbc1.chain.set 1 (applyMut (wbc1.chain.get ⟨1, by decide⟩) (FieldMut.mBody "ff"))) =
      [blockErrMsg (applyMut (wbc1.chain.get ⟨1, by decide⟩) (FieldMut.mBody "ff")).height] :=
  C3_tamper_detection id (fun _ _ h => h) wbc1 wbc1_reachable 1 (by decide)
    (FieldMut.mBody "ff")
    (show ("ff" : String) ≠ (wbc1.chain.get ⟨1, by decide⟩).body by decide)

theorem nowString_data (ms : Nat) (h : 1000 ≤ ms) :
    (nowString ms).data = natReprL (ms / 1000) := by
  unfold nowString
  exact sliceL3_natReprL h

theorem nowString_no_colon (ms : Nat) (h : 1000 ≤ ms) : ':' ∉ (nowString ms).data := by
  rw [nowString_data ms h]
  intro hc
  obtain ⟨d, hd, heq⟩ := natReprL_mem_digit _ ':' hc
  exact digitChar10_ne_colon hd heq.symm

/-- `parseInt(message.split(':')[1])` on a challenge message produced by
`requestMessageOwnershipVerification` recovers the embedded issuance time
in whole seconds. -/
theorem messageTime_requestMessage (address : String) (hA : ':' ∉ address.data)
    (issuedMs : Nat) (hIss : 1000 ≤ issuedMs) :
    messageTime (requestMessageOwnershipVerification address issuedMs) =
      some ((issuedMs / 1000 : Nat) : Int) := by
  unfold messageTime requestMessageOwnershipVerification
  have hdata : (address ++ ":" ++ nowString issuedMs ++ ":starRegistry").data =
      address.data ++ ':' :: ((nowString issuedMs).data ++ ':' :: "starRegistry".data) := by
    show ((address.data ++ ":".data) ++ (nowString issuedMs).data) ++ ":starRegistry".data =
      address.data ++ ':' :: ((nowString issuedMs).data ++ ':' :: "starRegistry".data)
    simp [List.append_assoc]
  rw [hdata]
  rw [splitColon_append _ hA]
  rw [splitColon_append _ (nowString_no_colon issuedMs hIss)]
  show parseIntJs (nowString issuedMs).data = some ((issuedMs / 1000 : Nat) : Int)
  rw [nowString_data issuedMs hIss]
  exact parseIntJs_natReprL _

/-- C6: `submitStar` checks expiry strictly before the signature and the
signature before the append: when the elapsed whole seconds
(`now - issuance`, both derived as the code derives them) exceed 300 the
call rejects with the expiry message for every possible verifier (the
verifier is never consulted); when they do not exceed 300 and the
signature verifies, the call resolves with the appended block. -/
theorem C6_expiry_then_signature (H : String → String)
    (verify : String → String → String → Bool) (bc : Blockchain)
    (hr : Reachable H bc) (address signature starText : String)
    (hA : ':' ∉ address.data) (issuedMs nowMs : Nat)
    (hIss : 1000 ≤ issuedMs) (hNow : 1000 ≤ nowMs) :
    ((((nowMs / 1000 : Nat) : Int) - ((issuedMs / 1000 : Nat) : Int) > 300 →
      ∀ v2 : String → String → String → Bool,
        bc.submitStar H v2 address (requestMessageOwnershipVerification address issuedMs)
          signature starText nowMs = (.rejected "5 miutes have passed", bc)) ∧
    ((((nowMs / 1000 : Nat) : Int) - ((issuedMs / 1000 : Nat) : Int) ≤ 300) →
      verify (requestMessageOwnershipVerification address issuedMs) address signature = true →
      ∃ b bc2, bc.submitStar H verify address
        (requestMessageOwnershipVerification address issuedMs)
        signature starText nowMs = (.resolved b, bc2))) := by
  have hcur : parseIntJs (sliceL3 (natReprL nowMs)) = some ((nowMs / 1000 : Nat) : Int) := by
    rw [sliceL3_natReprL hNow]
    exact parseIntJs_natReprL _
  have hmsg := messageTime_requestMessage address hA issuedMs hIss
  constructor
  · intro hgt v2
    have hcond : nanGt (parseIntJs (sliceL3 (natReprL nowMs)))
        (messageTime (requestMessageOwnershipVerification address issuedMs)) 300 = true := by
      rw [hcur, hmsg]
      unfold nanGt
      exact decide_eq_true hgt
    unfold Blockchain.submitStar
    rw [if_pos hcond]
  · intro hle hver
    have hcond : nanGt (parseIntJs (sliceL3 (natReprL nowMs)))
        (messageTime (requestMessageOwnershipVerification address issuedMs)) 300 = false := by
      rw [hcur, hmsg]
      unfold nanGt
      exact decide_eq_false (not_lt.mpr hle)
    obtain ⟨b2, hok2, hchain⟩ := _addBlock_ok_of_reachable H bc hr
      (starPayloadText address (requestMessageOwnershipVerification address issuedMs)
        signature starText) nowMs
    unfold Blockchain.submitStar
    rw [if_neg (by rw [hcond]; simp)]
    rw [if_neg (by rw [hver]; simp)]
    rcases hadd : bc._addBlock H
        (newBlock (starPayloadText address
          (requestMessageOwnershipVerification address issuedMs) signature starText))
        nowMs with ⟨r, bc2⟩
    rw [hadd] at hok2
    simp only [hadd]
    cases r with
    | ok b =>
      exact ⟨b, bc2, rfl⟩
    | error e =>
      simp at hok2

theorem C6_witness :
    (wbcGen.submitStar id (fun _ _ _ => true) "A"
        (requestMessageOwnershipVerification "A" 1700000000123) "sig" "\x7b\"star\":\"P\"\x7d"
        1700000301200 = (.rejected "5 miutes have passed", wbcGen)) ∧
    (∃ b bc2, wbcGen.submitStar id (fun _ _ _ => true) "A"
        (requestMessageOwnershipVerification "A" 1700000000123) "sig" "\x7b\"star\":\"P\"\x7d"
        1700000299500 = (.resolved b, bc2)) := by
  constructor
  · exact (C6_expiry_then_signature id (fun _ _ _ => true) wbcGen wbcGen_reachable
      "A" "sig" "\x7b\"star\":\"P\"\x7d" (by decide) 1700000000123 1700000301200
      (by decide) (by decide)).1 (by decide) (fun _ _ _ => true)
  · exact (C6_expiry_then_signature id (fun _ _ _ => true) wbcGen wbcGen_reachable
      "A" "sig" "\x7b\"star\":\"P\"\x7d" (by decide) 1700000000123 1700000299500
      (by decide) (by decide)).2 (by decide) rfl

/-! ## C4: the identity query and its premature resolution -/

def vTrue : String → String → String → Bool := fun _ _ _ => true

def demoMsgA : String := requestMessageOwnershipVerification "A" 1700000000123

def demoMsgB : String := requestMessageOwnershipVerification "B" 1700000000123

def demoBC0 : Blockchain := Blockchain.initChain id emptyBlockchain 1700000000123

def demoBC1 : Blockchain :=
  (demoBC0.submitStar id vTrue "A" demoMsgA "sigA1" "\x7b\"star\":\"Polaris\"\x7d" 1700000100000).2

def demoBC2 : Blockchain :=
  (demoBC1.submitStar id vTrue "A" demoMsgA "sigA2" "\x7b\"star\":\"Vega\"\x7d" 1700000101000).2

def demoBC3 : Blockchain :=
  (demoBC2.submitStar id vTrue "B" demoMsgB "sigB" "\x7b\"star\":\"Deneb\"\x7d" 1700000102000).2

def payloadA1 : Json :=
  Json.jobj [("address", Json.jstr "A"), ("message", Json.jstr "A:1700000000:starRegistry"),
    ("signature", Json.jstr "sigA1"), ("star", Json.jobj [("star", Json.jstr "Polaris")])]

def payloadA2 : Json :=
  Json.jobj [("address", Json.jstr "A"), ("message", Json.jstr "A:1700000000:starRegistry"),
    ("signature", Json.jstr "sigA2"), ("star", Json.jobj [("star", Json.jstr "Vega")])]

theorem getStars_foldl_queue_only (st : StarsExec) :
    ∀ l : List Block,
    (l.foldl (fun (st : StarsExec) b => { st with queue := st.queue ++ [b] }) st).stars =
      st.stars := by
  intro l
  induction l generalizing st with
  | nil => rfl
  | cons b rest ih => exact ih _

/-- C4 evaluation: on the chain holding star records for identities
A, A, B (in that order, after the genesis block), the promise returned by
`getStarsByWalletAddress("A")` is resolved — synchronously, before any
queued per-block decode continuation has run — while the `stars` array is
still empty; in fact it is resolved with `[]` for every chain and every
address.  The two A-payloads are only appended (in chain order) by the
microtasks that run after resolution, and the genesis block's decode
failure escapes as an unhandled promise rejection. -/
theorem C4_resolved_before_decodes :
    (∀ (self : Blockchain) (address : String),
      (self.getStarsByWalletAddress address).resolvedValue = some []) ∧
    (demoBC3.getStarsByWalletAddress "A").stars = [payloadA1, payloadA2] ∧
    (demoBC3.getStarsByWalletAddress "A").unhandledRejections =
      [GetDataErr.genesisNoData] ∧
    ([payloadA1, payloadA2] : List Json) ≠ [] := by
  refine ⟨?_, ?_, ?_, ?_⟩
  · intro self address
    unfold Blockchain.getStarsByWalletAddress getStarsSyncPhase
    have hq := getStars_foldl_queue_only
      { queue := [], stars := [], resolvedValue := none, unhandledRejections := [] }
      self.chain
    have hpreserve : ∀ (l : List Block) (st : StarsExec),
        (l.foldl (runStarsMicrotask address) st).resolvedValue = st.resolvedValue := by
      intro l
      induction l with
      | nil => intro st; rfl
      | cons b rest ih =>
        intro st
        rw [List.foldl_cons, ih]
        unfold runStarsMicrotask
        cases b.getBData with
        | ok data =>
          dsimp only
          split
          · rfl
          · rfl
        | error e => rfl
    rw [hpreserve]
    dsimp only
    rw [hq]
  · rfl
  · rfl
  · intro h
    exact List.noConfusion h
